import Mathlib

/-!
Verification of the turn-staging core of the Qwirkle clone.

The development shallowly embeds the game-state logic found in
`src/Game.cpp`, `src/Game.h`, `src/Board.cpp`, `src/Board.h` and
`src/Tile.h`:

* `Shape`, `Color`, `Tile` mirror `Tile.h`;
* the board and the staging area (`std::map<Coord, Tile>`) are modelled as
  association lists with in-place-overwrite insertion (`mapInsert`), kept
  duplicate-free by the operations themselves;
* the tile bag (`std::vector<Tile>`) is a Lean list whose LAST element is
  the next tile drawn (`back`/`pop_back` semantics);
* the hand (`std::vector<std::optional<Tile>>`, size 6) is a list of
  `Option Tile`;
* the four turn operations (`selectSlot`, `placeAt`, `commitTurn`,
  `resetUnconfirmedTiles`) follow the corresponding branches of
  `Game::run` and the helper member functions line by line.
-/

/-- Shapes, in the declaration order of `Tile.h`. -/
inductive Shape where
  | Circle | Square | Diamond | Fourpoint | Clover | Astericks
  deriving DecidableEq, Fintype

/-- Colors, in the declaration order of `Tile.h`. -/
inductive Color where
  | Red | Orange | Yellow | Green | Blue | Purple
  deriving DecidableEq, Fintype

/-- A tile is a (shape, color) pair, mirroring `struct Tile` in `Tile.h`. -/
structure Tile where
  shape : Shape
  color : Color
  deriving DecidableEq, Fintype

/-- Grid coordinate, `using Coord = std::pair<int, int>` from `Board.h`. -/
abbrev Coord := Int × Int

/-- Lookup in an association list, modelling `std::map::find`. -/
def lookupCoord : List (Coord × Tile) → Coord → Option Tile
  | [], _ => none
  | (c, t) :: rest, c' => if c = c' then some t else lookupCoord rest c'

/-- Map assignment `m[c] = t`: overwrite the entry for `c` in place if `c`
is already a key, otherwise append a new entry.  Models both
`Board::placeTile` (`tiles[{x, y}] = tile`) and the staged-tile write
`stagedTiles[boardCoord] = ...` in `Game::run`. -/
def mapInsert : List (Coord × Tile) → Coord → Tile → List (Coord × Tile)
  | [], c, t => [(c, t)]
  | (c', t') :: rest, c, t =>
    if c' = c then (c, t) :: rest else (c', t') :: mapInsert rest c t

/-- Model of `Board::isOccupied`: membership query on the sparse board map. -/
def isOccupied (board : List (Coord × Tile)) (c : Coord) : Bool :=
  (lookupCoord board c).isSome

/-- The whole mutable game state of `class Game` (rendering members
omitted): bag, hand, selection index (` -1` = none, as in
`int selectedHandIndex = -1`), staged tiles and committed board. -/
structure GameState where
  tileBag : List Tile
  playerHand : List (Option Tile)
  selectedHandIndex : Int
  stagedTiles : List (Coord × Tile)
  board : List (Coord × Tile)
  deriving DecidableEq

/-- Model of `Game::initTileBag` before the shuffle: three copies of every
(shape, color) combination, in the loop order of the source. -/
def initTileBag : List Tile :=
  [Shape.Circle, Shape.Square, Shape.Diamond, Shape.Astericks, Shape.Clover,
    Shape.Fourpoint].flatMap fun s =>
    [Color.Red, Color.Orange, Color.Yellow, Color.Green, Color.Blue,
      Color.Purple].flatMap fun c =>
      List.replicate 3 ⟨s, c⟩

/-- Model of `Game::drawTileFromBag`: on an empty bag return the fallback red circle
and leave the bag alone; otherwise pop and return the back element. -/
def drawTileFromBag (bag : List Tile) : Tile × List Tile :=
  if h : bag = [] then (⟨Shape.Circle, Color.Red⟩, bag)
  else (bag.getLast h, bag.dropLast)

/-- The defensive re-normalisation
`if (playerHand.size() != 6) playerHand.assign(6, std::nullopt)`
performed by `refillHand` and `resetUnconfirmedTiles`. -/
def normalizeHand (hand : List (Option Tile)) : List (Option Tile) :=
  if hand.length = 6 then hand else List.replicate 6 none

/-- The slot loop of `Game::refillHand`: for each slot in index order, if
the slot is empty and the bag is non-empty, draw into the slot. -/
def refillLoop : List (Option Tile) → List Tile → List (Option Tile) × List Tile
  | [], bag => ([], bag)
  | slot :: rest, bag =>
    if slot.isNone && !bag.isEmpty then
      let d := drawTileFromBag bag
      let r := refillLoop rest d.2
      (some d.1 :: r.1, r.2)
    else
      let r := refillLoop rest bag
      (slot :: r.1, r.2)

/-- Model of `Game::refillHand`: normalise the hand to six slots, then fill the
empty slots from the bag. -/
def refillHand (hand : List (Option Tile)) (bag : List Tile) :
    List (Option Tile) × List Tile :=
  refillLoop (normalizeHand hand) bag

/-- The inner slot scan of `Game::resetUnconfirmedTiles`: put the tile in
the first empty slot, or report failure when every slot is full. -/
def placeFirstEmpty : List (Option Tile) → Tile → Option (List (Option Tile))
  | [], _ => none
  | none :: rest, t => some (some t :: rest)
  | some u :: rest, t =>
    match placeFirstEmpty rest t with
    | some rest' => some (some u :: rest')
    | none => none

/-- The staged-tile loop of `Game::resetUnconfirmedTiles`: each staged tile
goes to the first empty hand slot, or to the back of the bag when the hand
is full.  The hand is re-normalised before every attempt, as in the
source. -/
def resetLoop : List (Coord × Tile) → List (Option Tile) → List Tile →
    List (Option Tile) × List Tile
  | [], hand, bag => (hand, bag)
  | (_, t) :: rest, hand, bag =>
    let hand0 := normalizeHand hand
    match placeFirstEmpty hand0 t with
    | some hand1 => resetLoop rest hand1 bag
    | none => resetLoop rest hand0 (bag ++ [t])

/-- Model of `Game::resetUnconfirmedTiles`: return staged tiles to the hand (or the
bag), clear the staging area and the selection. -/
def resetUnconfirmedTiles (s : GameState) : GameState :=
  { s with
    playerHand := (resetLoop s.stagedTiles s.playerHand s.tileBag).1
    tileBag := (resetLoop s.stagedTiles s.playerHand s.tileBag).2
    stagedTiles := []
    selectedHandIndex := -1 }

/-- The board write loop of the commit branch of `Game::run`:
`for (p : stagedTiles) board.placeTile(p.first.first, p.first.second, p.second)`. -/
def commitBoard : List (Coord × Tile) → List (Coord × Tile) → List (Coord × Tile)
  | [], board => board
  | (c, t) :: rest, board => commitBoard rest (mapInsert board c t)

/-- The commit branch of `Game::run` (confirm button): place every staged
tile on the board, clear the staging area, refill the hand, clear the
selection. -/
def commitTurn (s : GameState) : GameState :=
  { s with
    board := commitBoard s.stagedTiles s.board
    stagedTiles := []
    playerHand := (refillHand s.playerHand s.tileBag).1
    tileBag := (refillHand s.playerHand s.tileBag).2
    selectedHandIndex := -1 }

/-- The hand-click branch of `Game::run`: clicking slot `i` (the geometry
scan only yields `0 ≤ i < 6`) toggles the selection when the slot holds a
tile and does nothing when the slot is empty. -/
def selectSlot (s : GameState) (i : Fin 6) : GameState :=
  if (s.playerHand.getD i.val none).isSome then
    if s.selectedHandIndex = (i.val : Int) then { s with selectedHandIndex := -1 }
    else { s with selectedHandIndex := (i.val : Int) }
  else s

/-- The board-click branch of `Game::run`: with a valid selection of a
non-empty slot, and a target cell neither occupied on the board nor already
staged, move the tile from the hand slot to the staging area and clear the
selection; otherwise change nothing. -/
def placeAt (s : GameState) (c : Coord) : GameState :=
  if 0 ≤ s.selectedHandIndex ∧ s.selectedHandIndex < (s.playerHand.length : Int) then
    match s.playerHand.getD s.selectedHandIndex.toNat none with
    | some t =>
      if isOccupied s.board c = false ∧ lookupCoord s.stagedTiles c = none then
        { s with
          stagedTiles := mapInsert s.stagedTiles c t
          playerHand := s.playerHand.set s.selectedHandIndex.toNat none
          selectedHandIndex := -1 }
      else s
    | none => s
  else s

/-- The four externally triggered turn operations. -/
inductive Op where
  | select (i : Fin 6)
  | place (c : Coord)
  | commit
  | reset
  deriving DecidableEq

/-- Dispatch of one input event to the corresponding branch of
`Game::run`. -/
def applyOp : Op → GameState → GameState
  | .select i, s => selectSlot s i
  | .place c, s => placeAt s c
  | .commit, s => commitTurn s
  | .reset, s => resetUnconfirmedTiles s

/-- The initialisation sequence of `Game::run`: `initTileBag()` (the
shuffle is an arbitrary permutation, so the caller passes any permutation
of `initTileBag`), `playerHand.assign(6, std::nullopt)`, `refillHand()`. -/
def initialState (bag : List Tile) : GameState :=
  { tileBag := (refillHand (List.replicate 6 none) bag).2
    playerHand := (refillHand (List.replicate 6 none) bag).1
    selectedHandIndex := -1
    stagedTiles := []
    board := [] }

/-- States reachable from a freshly initialised game by the four turn
operations. -/
inductive Reachable : GameState → Prop
  | init (bag : List Tile) (hperm : bag.Perm initTileBag) :
      Reachable (initialState bag)
  | step (s : GameState) (op : Op) (h : Reachable s) : Reachable (applyOp op s)

/-- Number of occupied hand slots. -/
def occupiedCount (hand : List (Option Tile)) : Nat :=
  hand.countP fun o => o.isSome

/-- The keys of an association list are pairwise distinct. -/
abbrev NodupKeys (l : List (Coord × Tile)) : Prop :=
  (l.map Prod.fst).Nodup

/-- Index of the first empty hand slot, if any (specification-side
vocabulary for the slot scan of `resetUnconfirmedTiles`). -/
def firstEmptyIdx : List (Option Tile) → Option Nat
  | [] => none
  | none :: _ => some 0
  | some _ :: rest => (firstEmptyIdx rest).map (· + 1)

/-- Total number of tiles accounted for by a state: bag, occupied hand
slots, staging area, board. -/
def totalTiles (s : GameState) : Nat :=
  s.tileBag.length + occupiedCount s.playerHand + s.stagedTiles.length +
    s.board.length

/-- The inductive invariant of the state machine: six hand slots,
duplicate-free board and staging keys, staged coordinates absent from the
board, and the conservation sum. -/
structure GameInv (s : GameState) : Prop where
  handLen : s.playerHand.length = 6
  boardNodup : NodupKeys s.board
  stagedNodup : NodupKeys s.stagedTiles
  disj : ∀ c, (lookupCoord s.stagedTiles c).isSome → lookupCoord s.board c = none
  total : totalTiles s = 108

/-- Specification-side draw that surfaces exhaustion instead of fabricating
a tile; used to show the placeholder branch is unreachable from refill. -/
def drawTileSafe (bag : List Tile) : Option (Tile × List Tile) :=
  if h : bag = [] then none else some (bag.getLast h, bag.dropLast)

/-- Specification-side refill loop built on `drawTileSafe`: it can never
insert a fabricated placeholder, because it only fills a slot when the bag
actually yields a tile. -/
def refillLoopSafe : List (Option Tile) → List Tile → List (Option Tile) × List Tile
  | [], bag => ([], bag)
  | slot :: rest, bag =>
    if slot.isNone then
      match drawTileSafe bag with
      | some d =>
        let r := refillLoopSafe rest d.2
        (some d.1 :: r.1, r.2)
      | none =>
        let r := refillLoopSafe rest bag
        (slot :: r.1, r.2)
    else
      let r := refillLoopSafe rest bag
      (slot :: r.1, r.2)

/-- Sample tile used in concrete witnesses. -/
def tileA : Tile := ⟨Shape.Circle, Color.Red⟩

/-- Sample tile used in concrete witnesses. -/
def tileB : Tile := ⟨Shape.Square, Color.Blue⟩

/-- Sample tile used in concrete witnesses. -/
def tileC : Tile := ⟨Shape.Diamond, Color.Green⟩

/-- Sample hand with occupied slots 0 and 2. -/
def sampleHand : List (Option Tile) :=
  [some tileA, none, some tileB, none, none, none]

/-- Sample mid-game state used in concrete witnesses. -/
def sampleState : GameState :=
  { tileBag := [tileC]
    playerHand := sampleHand
    selectedHandIndex := -1
    stagedTiles := [((0, 0), tileB)]
    board := [((1, 0), tileA)] }

/-- Sample state with hand slot 0 selected. -/
def sampleSelState : GameState :=
  { sampleState with selectedHandIndex := 0 }

/-- Freshly initialised game, slot 0 selected. -/
def demoState1 : GameState :=
  applyOp (Op.select 0) (initialState initTileBag)

/-- Demo state after also placing the selected tile at the origin. -/
def demoState2 : GameState :=
  applyOp (Op.place (0, 0)) demoState1

/-- Demo state after also committing the staged tile. -/
def demoState3 : GameState :=
  applyOp Op.commit demoState2

/-! ### Association-list lemmas -/

theorem lookup_mapInsert_self (l : List (Coord × Tile)) (c : Coord) (t : Tile) :
    lookupCoord (mapInsert l c t) c = some t := by
  induction l with
  | nil => simp [mapInsert, lookupCoord]
  | cons p rest ih =>
    obtain ⟨a, u⟩ := p
    by_cases h : a = c
    · subst h; simp [mapInsert, lookupCoord]
    · simp [mapInsert, h, lookupCoord, ih]

theorem lookup_mapInsert_ne (l : List (Coord × Tile)) (c c' : Coord) (t : Tile)
    (h : c' ≠ c) : lookupCoord (mapInsert l c t) c' = lookupCoord l c' := by
  induction l with
  | nil => simp [mapInsert, lookupCoord, Ne.symm h]
  | cons p rest ih =>
    obtain ⟨a, u⟩ := p
    by_cases hac : a = c
    · subst hac
      simp [mapInsert, lookupCoord, Ne.symm h]
    · by_cases hq : a = c'
      · subst hq; simp [mapInsert, hac, lookupCoord]
      · simp [mapInsert, hac, lookupCoord, hq, ih]

theorem lookup_eq_none_iff (l : List (Coord × Tile)) (c : Coord) :
    lookupCoord l c = none ↔ c ∉ l.map Prod.fst := by
  induction l with
  | nil => simp [lookupCoord]
  | cons p rest ih =>
    obtain ⟨a, u⟩ := p
    by_cases h : a = c
    · subst h; simp [lookupCoord]
    · simp [lookupCoord, h, ih, Ne.symm h]

theorem length_mapInsert_of_absent (l : List (Coord × Tile)) (c : Coord) (t : Tile)
    (h : lookupCoord l c = none) : (mapInsert l c t).length = l.length + 1 := by
  induction l with
  | nil => simp [mapInsert]
  | cons p rest ih =>
    obtain ⟨a, u⟩ := p
    by_cases hac : a = c
    · subst hac; simp [lookupCoord] at h
    · simp only [lookupCoord, if_neg hac] at h
      simp [mapInsert, hac, ih h]

theorem nodupKeys_cons (a : Coord) (t : Tile) (rest : List (Coord × Tile)) :
    NodupKeys ((a, t) :: rest) ↔ a ∉ rest.map Prod.fst ∧ NodupKeys rest := by
  unfold NodupKeys; simp

theorem keys_mapInsert (l : List (Coord × Tile)) (c : Coord) (t : Tile) :
    (mapInsert l c t).map Prod.fst =
      if c ∈ l.map Prod.fst then l.map Prod.fst else l.map Prod.fst ++ [c] := by
  induction l with
  | nil => simp [mapInsert]
  | cons p rest ih =>
    obtain ⟨a, u⟩ := p
    by_cases hac : a = c
    · subst hac; simp [mapInsert]
    · by_cases hc : c ∈ rest.map Prod.fst
      · simp [mapInsert, hac, ih, hc, Ne.symm hac]
      · simp [mapInsert, hac, ih, hc, Ne.symm hac]

theorem nodupKeys_mapInsert (l : List (Coord × Tile)) (c : Coord) (t : Tile)
    (h : NodupKeys l) : NodupKeys (mapInsert l c t) := by
  unfold NodupKeys at h ⊢
  rw [keys_mapInsert]
  by_cases hc : c ∈ l.map Prod.fst
  · simpa [hc] using h
  · simp [hc, List.nodup_append, h]

theorem nodupKeys_commitBoard (staged : List (Coord × Tile)) :
    ∀ board, NodupKeys board → NodupKeys (commitBoard staged board) := by
  induction staged with
  | nil => intro board hb; exact hb
  | cons p rest ih =>
    intro board hb
    obtain ⟨a, t⟩ := p
    exact ih _ (nodupKeys_mapInsert _ _ _ hb)

theorem commitBoard_lookup (staged : List (Coord × Tile)) :
    ∀ board, NodupKeys staged → ∀ c,
      lookupCoord (commitBoard staged board) c =
        (lookupCoord staged c).or (lookupCoord board c) := by
  induction staged with
  | nil => intro board _ c; simp [commitBoard, lookupCoord]
  | cons p rest ih =>
    intro board hnd c
    obtain ⟨a, t⟩ := p
    obtain ⟨ha, hrest⟩ := (nodupKeys_cons a t rest).mp hnd
    rw [commitBoard, ih _ hrest]
    by_cases hac : a = c
    · subst hac
      have hnone : lookupCoord rest a = none := (lookup_eq_none_iff rest a).mpr ha
      simp [lookupCoord, hnone, lookup_mapInsert_self]
    · simp [lookupCoord, hac, lookup_mapInsert_ne _ _ _ _ (Ne.symm hac)]

theorem commitBoard_length (staged : List (Coord × Tile)) :
    ∀ board, NodupKeys staged →
      (∀ c, (lookupCoord staged c).isSome → lookupCoord board c = none) →
      (commitBoard staged board).length = board.length + staged.length := by
  induction staged with
  | nil => intro board _ _; simp [commitBoard]
  | cons p rest ih =>
    intro board hnd habs
    obtain ⟨a, t⟩ := p
    obtain ⟨ha, hrest⟩ := (nodupKeys_cons a t rest).mp hnd
    have hba : lookupCoord board a = none := habs a (by simp [lookupCoord])
    rw [commitBoard, ih _ hrest ?_, length_mapInsert_of_absent _ _ _ hba]
    · simp; omega
    · intro c hc
      have hca : c ≠ a := by
        rintro rfl
        exact absurd ((lookup_eq_none_iff rest c).mpr ha) (by
          intro hn
          rw [hn] at hc
          simp at hc)
      rw [lookup_mapInsert_ne _ _ _ _ hca]
      apply habs
      simpa [lookupCoord, Ne.symm hca] using hc

/-! ### Hand-slot lemmas -/

theorem getD_set_self (l : List (Option Tile)) (i : Nat) (x : Option Tile)
    (h : i < l.length) : (l.set i x).getD i none = x := by
  induction l generalizing i with
  | nil => simp at h
  | cons a l ih =>
    cases i with
    | zero => rfl
    | succ j => simpa [List.getD_cons_succ] using ih j (by simpa using h)

theorem getD_set_ne (l : List (Option Tile)) (i j : Nat) (x : Option Tile)
    (h : j ≠ i) : (l.set i x).getD j none = l.getD j none := by
  induction l generalizing i j with
  | nil => simp
  | cons a l ih =>
    cases i with
    | zero =>
      cases j with
      | zero => exact absurd rfl h
      | succ k => simp [List.getD_cons_succ]
    | succ m =>
      cases j with
      | zero => simp
      | succ k => simpa [List.getD_cons_succ] using ih m k (by omega)

theorem occupiedCount_cons (o : Option Tile) (l : List (Option Tile)) :
    occupiedCount (o :: l) = occupiedCount l + if o.isSome then 1 else 0 := by
  simp [occupiedCount, List.countP_cons]

theorem occupiedCount_set_none (l : List (Option Tile)) (i : Nat) (t : Tile)
    (hi : l.getD i none = some t) :
    occupiedCount (l.set i none) + 1 = occupiedCount l := by
  induction l generalizing i with
  | nil => simp at hi
  | cons a l ih =>
    cases i with
    | zero =>
      simp only [List.getD_cons_zero] at hi
      subst hi
      simp [occupiedCount_cons]
    | succ j =>
      simp only [List.getD_cons_succ] at hi
      have h2 := ih j hi
      simp only [List.set_cons_succ, occupiedCount_cons]
      omega

/-! ### Draw and refill lemmas -/

theorem drawTileFromBag_length (bag : List Tile) (h : bag ≠ []) :
    (drawTileFromBag bag).2.length + 1 = bag.length := by
  rw [drawTileFromBag, dif_neg h]
  have := List.length_pos.mpr h
  simp [List.length_dropLast]
  omega

theorem drawTileFromBag_mem (bag : List Tile) (h : bag ≠ []) :
    (drawTileFromBag bag).1 ∈ bag := by
  rw [drawTileFromBag, dif_neg h]
  exact List.getLast_mem h

theorem refillLoop_length (hand : List (Option Tile)) :
    ∀ bag, (refillLoop hand bag).1.length = hand.length := by
  induction hand with
  | nil => intro bag; rfl
  | cons slot rest ih =>
    intro bag
    by_cases h : (slot.isNone && !bag.isEmpty) = true
    · simp [refillLoop, h, ih]
    · simp [refillLoop, h, ih]

theorem refillLoop_conserve (hand : List (Option Tile)) :
    ∀ bag, (refillLoop hand bag).2.length + occupiedCount (refillLoop hand bag).1 =
      bag.length + occupiedCount hand := by
  induction hand with
  | nil => intro bag; simp [refillLoop]
  | cons slot rest ih =>
    intro bag
    by_cases h : (slot.isNone && !bag.isEmpty) = true
    · have h1 := (Bool.and_eq_true_iff.mp h).1
      have h2 := (Bool.and_eq_true_iff.mp h).2
      have hbag : bag ≠ [] := by
        intro hn
        rw [hn] at h2
        simp at h2
      have hslot : slot = none := Option.isNone_iff_eq_none.mp h1
      have hd := drawTileFromBag_length bag hbag
      have hrec := ih (drawTileFromBag bag).2
      simp only [refillLoop]
      rw [if_pos h]
      simp only [occupiedCount_cons, hslot, Option.isSome_some, Option.isSome_none,
        if_true, Bool.false_eq_true, if_false]
      omega
    · have hrec := ih bag
      simp only [refillLoop]
      rw [if_neg h]
      simp only [occupiedCount_cons]
      omega

theorem refillLoop_keeps (hand : List (Option Tile)) :
    ∀ bag i t, hand.getD i none = some t →
      (refillLoop hand bag).1.getD i none = some t := by
  induction hand with
  | nil => intro bag i t h; simp at h
  | cons slot rest ih =>
    intro bag i t h
    by_cases hb : (slot.isNone && !bag.isEmpty) = true
    · have hslot : slot = none :=
        Option.isNone_iff_eq_none.mp (Bool.and_eq_true_iff.mp hb).1
      cases i with
      | zero => rw [hslot, List.getD_cons_zero] at h; exact absurd h (by simp)
      | succ j =>
        rw [List.getD_cons_succ] at h
        simp only [refillLoop]
        rw [if_pos hb]
        rw [List.getD_cons_succ]
        exact ih _ j t h
    · cases i with
      | zero =>
        rw [List.getD_cons_zero] at h
        simp only [refillLoop]
        rw [if_neg hb]
        rw [List.getD_cons_zero]
        exact h
      | succ j =>
        rw [List.getD_cons_succ] at h
        simp only [refillLoop]
        rw [if_neg hb]
        rw [List.getD_cons_succ]
        exact ih _ j t h

theorem refillLoop_empty_bag (hand : List (Option Tile)) :
    refillLoop hand [] = (hand, []) := by
  induction hand with
  | nil => rfl
  | cons slot rest ih => simp [refillLoop, ih]

theorem refillLoop_unfilled (hand : List (Option Tile)) :
    ∀ bag i, i < hand.length → (refillLoop hand bag).1.getD i none = none →
      (refillLoop hand bag).2 = [] := by
  induction hand with
  | nil => intro bag i hi; simp at hi
  | cons slot rest ih =>
    intro bag i hi h
    by_cases hb : (slot.isNone && !bag.isEmpty) = true
    · cases i with
      | zero =>
        simp only [refillLoop] at h
        rw [if_pos hb, List.getD_cons_zero] at h
        exact absurd h (by simp)
      | succ j =>
        simp only [refillLoop] at h ⊢
        rw [if_pos hb] at h ⊢
        rw [List.getD_cons_succ] at h
        exact ih _ j (by simpa using hi) h
    · cases i with
      | zero =>
        simp only [refillLoop] at h
        rw [if_neg hb, List.getD_cons_zero] at h
        have hbag : bag = [] := by
          cases bag with
          | nil => rfl
          | cons b bs => exact absurd (by simp [h]) hb
        subst hbag
        simp only [refillLoop]
        rw [if_neg hb]
        simp [refillLoop_empty_bag]
      | succ j =>
        simp only [refillLoop] at h ⊢
        rw [if_neg hb] at h ⊢
        rw [List.getD_cons_succ] at h
        exact ih _ j (by simpa using hi) h

theorem refillLoop_mem (hand : List (Option Tile)) :
    ∀ bag i t, (refillLoop hand bag).1.getD i none = some t →
      hand.getD i none = some t ∨ t ∈ bag := by
  induction hand with
  | nil =>
    intro bag i t h
    simp only [refillLoop] at h
    simp at h
  | cons slot rest ih =>
    intro bag i t h
    by_cases hb : (slot.isNone && !bag.isEmpty) = true
    · have h2 := (Bool.and_eq_true_iff.mp hb).2
      have hbag : bag ≠ [] := by
        intro hn
        rw [hn] at h2
        simp at h2
      cases i with
      | zero =>
        simp only [refillLoop] at h
        rw [if_pos hb, List.getD_cons_zero] at h
        have ht : (drawTileFromBag bag).1 = t := Option.some_inj.mp h
        exact Or.inr (ht ▸ drawTileFromBag_mem bag hbag)
      | succ j =>
        simp only [refillLoop] at h
        rw [if_pos hb, List.getD_cons_succ] at h
        rcases ih _ j t h with h1 | h2
        · exact Or.inl (by rw [List.getD_cons_succ]; exact h1)
        · refine Or.inr ((List.dropLast_sublist bag).mem ?_)
          simpa [drawTileFromBag, hbag] using h2
    · cases i with
      | zero =>
        simp only [refillLoop] at h
        rw [if_neg hb, List.getD_cons_zero] at h
        exact Or.inl (by rw [List.getD_cons_zero]; exact h)
      | succ j =>
        simp only [refillLoop] at h
        rw [if_neg hb, List.getD_cons_succ] at h
        rcases ih _ j t h with h1 | h2
        · exact Or.inl (by rw [List.getD_cons_succ]; exact h1)
        · exact Or.inr h2

/-! ### Reset lemmas -/

theorem normalizeHand_eq (hand : List (Option Tile)) (h : hand.length = 6) :
    normalizeHand hand = hand := by
  simp [normalizeHand, h]

theorem placeFirstEmpty_eq (t : Tile) :
    ∀ hand, placeFirstEmpty hand t =
      (firstEmptyIdx hand).map fun j => hand.set j (some t) := by
  intro hand
  induction hand with
  | nil => rfl
  | cons a rest ih =>
    cases a with
    | none => rfl
    | some u =>
      simp only [placeFirstEmpty, firstEmptyIdx, ih]
      cases firstEmptyIdx rest with
      | none => rfl
      | some j => rfl

theorem placeFirstEmpty_length (hand : List (Option Tile)) (t : Tile)
    (hand' : List (Option Tile)) (h : placeFirstEmpty hand t = some hand') :
    hand'.length = hand.length := by
  rw [placeFirstEmpty_eq] at h
  cases hj : firstEmptyIdx hand with
  | none => rw [hj] at h; simp at h
  | some j =>
    rw [hj] at h
    simp only [Option.map_some', Option.some_inj] at h
    rw [← h, List.length_set]

theorem occupiedCount_placeFirstEmpty (t : Tile) :
    ∀ hand hand', placeFirstEmpty hand t = some hand' →
      occupiedCount hand' = occupiedCount hand + 1 := by
  intro hand
  induction hand with
  | nil => intro h' h; simp [placeFirstEmpty] at h
  | cons a rest ih =>
    intro h' h
    cases a with
    | none =>
      simp only [placeFirstEmpty, Option.some_inj] at h
      rw [← h]
      simp [occupiedCount_cons]
    | some u =>
      simp only [placeFirstEmpty] at h
      cases hp : placeFirstEmpty rest t with
      | none => rw [hp] at h; simp at h
      | some rest' =>
        rw [hp] at h
        simp only [Option.some_inj] at h
        rw [← h]
        have := ih rest' hp
        simp [occupiedCount_cons, this]

theorem resetLoop_length (staged : List (Coord × Tile)) :
    ∀ hand bag, hand.length = 6 → (resetLoop staged hand bag).1.length = 6 := by
  induction staged with
  | nil => intro hand bag h; exact h
  | cons p rest ih =>
    intro hand bag h
    obtain ⟨c, t⟩ := p
    cases hp : placeFirstEmpty hand t with
    | some hand1 =>
      simp only [resetLoop, normalizeHand_eq hand h, hp]
      exact ih hand1 bag (by rw [placeFirstEmpty_length hand t hand1 hp]; exact h)
    | none =>
      simp only [resetLoop, normalizeHand_eq hand h, hp]
      exact ih hand (bag ++ [t]) h

theorem resetLoop_conserve (staged : List (Coord × Tile)) :
    ∀ hand bag, hand.length = 6 →
      (resetLoop staged hand bag).2.length +
          occupiedCount (resetLoop staged hand bag).1 =
        bag.length + occupiedCount hand + staged.length := by
  induction staged with
  | nil => intro hand bag h; simp [resetLoop]
  | cons p rest ih =>
    intro hand bag h
    obtain ⟨c, t⟩ := p
    cases hp : placeFirstEmpty hand t with
    | some hand1 =>
      have hlen : hand1.length = 6 := by
        rw [placeFirstEmpty_length hand t hand1 hp]; exact h
      have hocc := occupiedCount_placeFirstEmpty t hand hand1 hp
      have hrec := ih hand1 bag hlen
      simp only [resetLoop, normalizeHand_eq hand h, hp, List.length_cons]
      omega
    | none =>
      have hrec := ih hand (bag ++ [t]) h
      simp only [resetLoop, normalizeHand_eq hand h, hp, List.length_cons]
      simp only [List.length_append, List.length_singleton] at hrec
      omega

/-! ### Small facts used by the initial state -/

theorem initTileBag_length : initTileBag.length = 108 := by decide

theorem occupiedCount_blank : occupiedCount (List.replicate 6 none) = 0 := by decide

theorem isOccupied_false_iff (board : List (Coord × Tile)) (c : Coord) :
    isOccupied board c = false ↔ lookupCoord board c = none := by
  unfold isOccupied
  cases lookupCoord board c <;> simp

/-! ### Invariant preservation -/

theorem gameInv_selectSlot (s : GameState) (i : Fin 6) (h : GameInv s) :
    GameInv (selectSlot s i) := by
  unfold selectSlot
  split
  · split
    · exact ⟨h.handLen, h.boardNodup, h.stagedNodup, h.disj, h.total⟩
    · exact ⟨h.handLen, h.boardNodup, h.stagedNodup, h.disj, h.total⟩
  · exact h

theorem gameInv_placeAt (s : GameState) (c : Coord) (h : GameInv s) :
    GameInv (placeAt s c) := by
  unfold placeAt
  by_cases hg : 0 ≤ s.selectedHandIndex ∧
      s.selectedHandIndex < (s.playerHand.length : Int)
  · rw [if_pos hg]
    cases hslot : s.playerHand.getD s.selectedHandIndex.toNat none with
    | none => exact h
    | some t =>
      show GameInv (if isOccupied s.board c = false ∧
          lookupCoord s.stagedTiles c = none then
        { s with
          stagedTiles := mapInsert s.stagedTiles c t
          playerHand := s.playerHand.set s.selectedHandIndex.toNat none
          selectedHandIndex := -1 }
      else s)
      by_cases hcond : isOccupied s.board c = false ∧
          lookupCoord s.stagedTiles c = none
      · rw [if_pos hcond]
        obtain ⟨hocc, hstg⟩ := hcond
        have hbnone : lookupCoord s.board c = none :=
          (isOccupied_false_iff s.board c).mp hocc
        refine ⟨?_, h.boardNodup, nodupKeys_mapInsert _ _ _ h.stagedNodup, ?_, ?_⟩
        · show (s.playerHand.set s.selectedHandIndex.toNat none).length = 6
          rw [List.length_set]; exact h.handLen
        · intro c' hc'
          have hc2 : (lookupCoord (mapInsert s.stagedTiles c t) c').isSome = true := hc'
          show lookupCoord s.board c' = none
          by_cases hcc : c' = c
          · subst hcc; exact hbnone
          · rw [lookup_mapInsert_ne _ _ _ _ hcc] at hc2
            exact h.disj c' hc2
        · show s.tileBag.length +
              occupiedCount (s.playerHand.set s.selectedHandIndex.toNat none) +
              (mapInsert s.stagedTiles c t).length + s.board.length = 108
          have h1 := occupiedCount_set_none s.playerHand s.selectedHandIndex.toNat t hslot
          have h2 := length_mapInsert_of_absent s.stagedTiles c t hstg
          have h3 := h.total
          unfold totalTiles at h3
          omega
      · rw [if_neg hcond]; exact h
  · rw [if_neg hg]; exact h

theorem gameInv_commitTurn (s : GameState) (h : GameInv s) :
    GameInv (commitTurn s) := by
  have hb := nodupKeys_commitBoard s.stagedTiles s.board h.boardNodup
  have hlen := commitBoard_length s.stagedTiles s.board h.stagedNodup h.disj
  have hrl := refillLoop_length (normalizeHand s.playerHand) s.tileBag
  have hcons := refillLoop_conserve (normalizeHand s.playerHand) s.tileBag
  rw [normalizeHand_eq _ h.handLen] at hrl hcons
  have htot := h.total
  unfold totalTiles at htot
  refine ⟨?_, hb, List.nodup_nil, ?_, ?_⟩
  · show (refillHand s.playerHand s.tileBag).1.length = 6
    unfold refillHand
    rw [normalizeHand_eq _ h.handLen, hrl, h.handLen]
  · intro c hc
    simp [lookupCoord] at hc
  · show (refillHand s.playerHand s.tileBag).2.length +
        occupiedCount (refillHand s.playerHand s.tileBag).1 +
        ([] : List (Coord × Tile)).length +
        (commitBoard s.stagedTiles s.board).length = 108
    unfold refillHand
    rw [normalizeHand_eq _ h.handLen]
    simp only [List.length_nil]
    omega

theorem gameInv_reset (s : GameState) (h : GameInv s) :
    GameInv (resetUnconfirmedTiles s) := by
  have hlen := resetLoop_length s.stagedTiles s.playerHand s.tileBag h.handLen
  have hcons := resetLoop_conserve s.stagedTiles s.playerHand s.tileBag h.handLen
  have htot := h.total
  unfold totalTiles at htot
  refine ⟨hlen, h.boardNodup, List.nodup_nil, ?_, ?_⟩
  · intro c hc
    simp [lookupCoord] at hc
  · show (resetLoop s.stagedTiles s.playerHand s.tileBag).2.length +
        occupiedCount (resetLoop s.stagedTiles s.playerHand s.tileBag).1 +
        ([] : List (Coord × Tile)).length + s.board.length = 108
    simp only [List.length_nil]
    omega

theorem gameInv_initialState (bag : List Tile) (hperm : bag.Perm initTileBag) :
    GameInv (initialState bag) := by
  have hlen : bag.length = 108 := by rw [hperm.length_eq]; exact initTileBag_length
  have hnorm : normalizeHand (List.replicate 6 none) = List.replicate 6 none := by
    simp [normalizeHand]
  have hl := refillLoop_length (normalizeHand (List.replicate 6 none)) bag
  have hcons := refillLoop_conserve (normalizeHand (List.replicate 6 none)) bag
  rw [hnorm] at hl hcons
  rw [occupiedCount_blank] at hcons
  refine ⟨?_, List.nodup_nil, List.nodup_nil, ?_, ?_⟩
  · show (refillHand (List.replicate 6 none) bag).1.length = 6
    unfold refillHand
    rw [hnorm, hl]
    simp
  · intro c hc
    simp [lookupCoord] at hc
  · show (refillHand (List.replicate 6 none) bag).2.length +
        occupiedCount (refillHand (List.replicate 6 none) bag).1 +
        ([] : List (Coord × Tile)).length + ([] : List (Coord × Tile)).length = 108
    unfold refillHand
    rw [hnorm]
    simp only [List.length_nil]
    omega

theorem reachable_gameInv (s : GameState) (h : Reachable s) : GameInv s := by
  induction h with
  | init bag hperm => exact gameInv_initialState bag hperm
  | step s op h ih =>
    cases op with
    | select i => exact gameInv_selectSlot s i ih
    | place c => exact gameInv_placeAt s c ih
    | commit => exact gameInv_commitTurn s ih
    | reset => exact gameInv_reset s ih

/-! ### Operation-level helper lemmas -/

theorem normalizeHand_length (hand : List (Option Tile)) :
    (normalizeHand hand).length = 6 := by
  unfold normalizeHand
  by_cases h : hand.length = 6
  · rw [if_pos h]; exact h
  · rw [if_neg h]; simp

theorem normalizeHand_of_firstEmpty_none (hand : List (Option Tile))
    (h : firstEmptyIdx (normalizeHand hand) = none) :
    normalizeHand hand = hand := by
  unfold normalizeHand at h ⊢
  by_cases hl : hand.length = 6
  · rw [if_pos hl]
  · rw [if_neg hl] at h
    exact absurd h (by decide)

theorem selectSlot_board (s : GameState) (i : Fin 6) :
    (selectSlot s i).board = s.board := by
  unfold selectSlot
  split
  · split
    · rfl
    · rfl
  · rfl

theorem placeAt_board (s : GameState) (c : Coord) :
    (placeAt s c).board = s.board := by
  unfold placeAt
  split
  · split
    · split
      · rfl
      · rfl
    · rfl
  · rfl

theorem commitTurn_board_keeps (s : GameState) (hinv : GameInv s) (c : Coord)
    (t : Tile) (hc : lookupCoord s.board c = some t) :
    lookupCoord (commitTurn s).board c = some t := by
  show lookupCoord (commitBoard s.stagedTiles s.board) c = some t
  rw [commitBoard_lookup s.stagedTiles s.board hinv.stagedNodup c]
  have hstg : lookupCoord s.stagedTiles c = none := by
    cases hx : lookupCoord s.stagedTiles c with
    | none => rfl
    | some u =>
      have hd := hinv.disj c (by rw [hx]; rfl)
      rw [hd] at hc
      cases hc
  rw [hstg, hc]
  rfl

theorem refillLoop_eq_safe (hand : List (Option Tile)) :
    ∀ bag, refillLoop hand bag = refillLoopSafe hand bag := by
  induction hand with
  | nil => intro bag; rfl
  | cons slot rest ih =>
    intro bag
    cases slot with
    | some u =>
      simp [refillLoop, refillLoopSafe, ih]
    | none =>
      cases bag with
      | nil =>
        simp [refillLoop, refillLoopSafe, drawTileSafe, ih]
      | cons b bs =>
        have hne : b :: bs ≠ [] := List.cons_ne_nil b bs
        simp only [refillLoop, refillLoopSafe, Option.isNone_none, Bool.true_and,
          List.isEmpty_cons, Bool.not_false, if_true, drawTileSafe, drawTileFromBag,
          dif_neg hne, ih]

/-! ### Reachability of the demo states -/

theorem demoState1_reachable : Reachable demoState1 :=
  Reachable.step (initialState initTileBag) (Op.select 0)
    (Reachable.init initTileBag (List.Perm.refl initTileBag))

theorem demoState2_reachable : Reachable demoState2 :=
  Reachable.step demoState1 (Op.place (0, 0)) demoState1_reachable

theorem demoState3_reachable : Reachable demoState3 :=
  Reachable.step demoState2 Op.commit demoState2_reachable

/-! ### The claims -/

/-- C1: Conservation law: every state reachable from initialization (a
freshly shuffled 108-tile supply, a hand filled by refill, empty staging
area, empty board) by any sequence of the four turn operations satisfies
bag + occupied hand slots + staging + board = 108 tiles. -/
theorem claim_c1_conservation (s : GameState) (h : Reachable s) :
    totalTiles s = 108 :=
  (reachable_gameInv s h).total

theorem claim_c1_conservation_witness : totalTiles demoState3 = 108 :=
  claim_c1_conservation demoState3 demoState3_reachable

/-- C2: Commit postcondition: from any state (with duplicate-free staging
keys, which every reachable state has), `commitTurn` puts every staged
entry on the board, changes no other board cell, clears the staging area
and the selection, keeps every occupied hand slot, fills empty slots up to
supply availability (a slot left empty means the supply was exhausted), and
with an empty staging area leaves the board unchanged. -/
theorem claim_c2_commit_postcondition (s : GameState)
    (hnd : NodupKeys s.stagedTiles) :
    (commitTurn s).stagedTiles = [] ∧
    (commitTurn s).selectedHandIndex = -1 ∧
    (∀ c t, lookupCoord s.stagedTiles c = some t →
      lookupCoord (commitTurn s).board c = some t) ∧
    (∀ c, lookupCoord s.stagedTiles c = none →
      lookupCoord (commitTurn s).board c = lookupCoord s.board c) ∧
    (∀ i t, (normalizeHand s.playerHand).getD i none = some t →
      (commitTurn s).playerHand.getD i none = some t) ∧
    (∀ i, i < (normalizeHand s.playerHand).length →
      (commitTurn s).playerHand.getD i none = none →
      (commitTurn s).tileBag = []) ∧
    (s.stagedTiles = [] → (commitTurn s).board = s.board) := by
  refine ⟨rfl, rfl, ?_, ?_, ?_, ?_, ?_⟩
  · intro c t hc
    show lookupCoord (commitBoard s.stagedTiles s.board) c = some t
    rw [commitBoard_lookup s.stagedTiles s.board hnd c, hc]
    rfl
  · intro c hc
    show lookupCoord (commitBoard s.stagedTiles s.board) c = lookupCoord s.board c
    rw [commitBoard_lookup s.stagedTiles s.board hnd c, hc]
    rfl
  · intro i t hi
    exact refillLoop_keeps (normalizeHand s.playerHand) s.tileBag i t hi
  · intro i hlen hi
    exact refillLoop_unfilled (normalizeHand s.playerHand) s.tileBag i hlen hi
  · intro hempty
    show commitBoard s.stagedTiles s.board = s.board
    rw [hempty]
    rfl

theorem claim_c2_commit_postcondition_witness :
    lookupCoord (commitTurn sampleState).board (0, 0) = some tileB ∧
    lookupCoord (commitTurn sampleState).board (1, 0) = some tileA ∧
    (commitTurn sampleState).stagedTiles = [] := by
  have h := claim_c2_commit_postcondition sampleState (by decide)
  exact ⟨h.2.2.1 (0, 0) tileB (by decide),
    h.2.2.2.1 (1, 0) (by decide) ▸ (by decide), h.1⟩

/-- C3: Successful placement moves exactly one tile: with hand slot `i`
selected and holding tile `t`, and target `c` neither occupied nor staged,
`placeAt` empties slot `i`, stages `t` at `c`, clears the selection, and
leaves the board, the supply and every other hand slot unchanged. -/
theorem claim_c3_place_success (s : GameState) (i : Nat) (t : Tile) (c : Coord)
    (hsel : s.selectedHandIndex = (i : Int))
    (hi : i < s.playerHand.length)
    (hslot : s.playerHand.getD i none = some t)
    (hocc : isOccupied s.board c = false)
    (hstg : lookupCoord s.stagedTiles c = none) :
    (placeAt s c).playerHand = s.playerHand.set i none ∧
    (placeAt s c).playerHand.getD i none = none ∧
    (∀ j, j ≠ i → (placeAt s c).playerHand.getD j none = s.playerHand.getD j none) ∧
    lookupCoord (placeAt s c).stagedTiles c = some t ∧
    (∀ c', c' ≠ c →
      lookupCoord (placeAt s c).stagedTiles c' = lookupCoord s.stagedTiles c') ∧
    (placeAt s c).selectedHandIndex = -1 ∧
    (placeAt s c).board = s.board ∧
    (placeAt s c).tileBag = s.tileBag := by
  have htn : ((i : Int)).toNat = i := by omega
  have hguard : 0 ≤ s.selectedHandIndex ∧
      s.selectedHandIndex < (s.playerHand.length : Int) := by
    rw [hsel]
    exact ⟨Int.natCast_nonneg i, by exact_mod_cast hi⟩
  have hred : placeAt s c = { s with
      stagedTiles := mapInsert s.stagedTiles c t
      playerHand := s.playerHand.set i none
      selectedHandIndex := -1 } := by
    unfold placeAt
    rw [if_pos hguard, hsel, htn, hslot]
    show (if isOccupied s.board c = false ∧ lookupCoord s.stagedTiles c = none then
        { s with
          stagedTiles := mapInsert s.stagedTiles c t
          playerHand := s.playerHand.set i none
          selectedHandIndex := -1 }
      else s) = _
    rw [if_pos ⟨hocc, hstg⟩]
  rw [hred]
  refine ⟨rfl, ?_, ?_, ?_, ?_, rfl, rfl, rfl⟩
  · exact getD_set_self s.playerHand i none hi
  · intro j hj
    exact getD_set_ne s.playerHand i j none hj
  · exact lookup_mapInsert_self s.stagedTiles c t
  · intro c' hc'
    exact lookup_mapInsert_ne s.stagedTiles c c' t hc'

theorem claim_c3_place_success_witness :
    (placeAt sampleSelState (2, 2)).playerHand.getD 0 none = none ∧
    lookupCoord (placeAt sampleSelState (2, 2)).stagedTiles (2, 2) = some tileA ∧
    (placeAt sampleSelState (2, 2)).selectedHandIndex = -1 := by
  have h := claim_c3_place_success sampleSelState 0 tileA (2, 2)
    (by decide) (by decide) (by decide) (by decide) (by decide)
  exact ⟨h.2.1, h.2.2.2.1, h.2.2.2.2.2.1⟩

/-- C4: Rejected placement is a no-op that keeps the selection: with hand
slot `i` selected and holding a tile, if the target is occupied on the
board or already staged, `placeAt` returns the state unchanged (hand,
board, staging area, supply and the `Selected(i)` state all kept). -/
theorem claim_c4_place_reject (s : GameState) (i : Nat) (c : Coord)
    (hsel : s.selectedHandIndex = (i : Int))
    (hi : i < s.playerHand.length)
    (hfull : (s.playerHand.getD i none).isSome = true)
    (hbad : isOccupied s.board c = true ∨
      (lookupCoord s.stagedTiles c).isSome = true) :
    placeAt s c = s := by
  have htn : ((i : Int)).toNat = i := by omega
  have hguard : 0 ≤ s.selectedHandIndex ∧
      s.selectedHandIndex < (s.playerHand.length : Int) := by
    rw [hsel]
    exact ⟨Int.natCast_nonneg i, by exact_mod_cast hi⟩
  obtain ⟨t, ht⟩ := Option.isSome_iff_exists.mp hfull
  have hne : ¬(isOccupied s.board c = false ∧
      lookupCoord s.stagedTiles c = none) := by
    rintro ⟨h1, h2⟩
    rcases hbad with hb | hb
    · rw [h1] at hb
      simp at hb
    · rw [h2] at hb
      simp at hb
  unfold placeAt
  rw [if_pos hguard, hsel, htn, ht]
  show (if isOccupied s.board c = false ∧ lookupCoord s.stagedTiles c = none then
      { s with
        stagedTiles := mapInsert s.stagedTiles c t
        playerHand := s.playerHand.set i none
        selectedHandIndex := -1 }
    else s) = s
  rw [if_neg hne]

theorem claim_c4_place_reject_witness :
    placeAt sampleSelState (1, 0) = sampleSelState :=
  claim_c4_place_reject sampleSelState 0 (1, 0)
    (by decide) (by decide) (by decide) (Or.inl (by decide))

/-- C5: Reset postcondition: `resetTurn` empties the staging area, clears
the selection, leaves the board unchanged, and processes staged tiles one
at a time, sending each to the first (lowest-index) empty hand slot, or
back to the supply when no hand slot is empty. -/
theorem claim_c5_reset_postcondition (s : GameState) :
    (resetUnconfirmedTiles s).stagedTiles = [] ∧
    (resetUnconfirmedTiles s).selectedHandIndex = -1 ∧
    (resetUnconfirmedTiles s).board = s.board ∧
    (∀ c t rest, s.stagedTiles = (c, t) :: rest →
      (∀ j, firstEmptyIdx (normalizeHand s.playerHand) = some j →
        resetUnconfirmedTiles s = resetUnconfirmedTiles
          { s with
            stagedTiles := rest
            playerHand := (normalizeHand s.playerHand).set j (some t) }) ∧
      (firstEmptyIdx (normalizeHand s.playerHand) = none →
        resetUnconfirmedTiles s = resetUnconfirmedTiles
          { s with stagedTiles := rest, tileBag := s.tileBag ++ [t] })) := by
  refine ⟨rfl, rfl, rfl, ?_⟩
  intro c t rest hst
  constructor
  · intro j hj
    have hp : placeFirstEmpty (normalizeHand s.playerHand) t =
        some ((normalizeHand s.playerHand).set j (some t)) := by
      rw [placeFirstEmpty_eq, hj]
      rfl
    unfold resetUnconfirmedTiles
    rw [hst]
    simp only [resetLoop, hp]
  · intro hj
    have hp : placeFirstEmpty (normalizeHand s.playerHand) t = none := by
      rw [placeFirstEmpty_eq, hj]
      rfl
    have hid := normalizeHand_of_firstEmpty_none s.playerHand hj
    have hp2 : placeFirstEmpty s.playerHand t = none := by
      rw [← hid]
      exact hp
    unfold resetUnconfirmedTiles
    rw [hst]
    simp only [resetLoop, hid, hp2]

theorem claim_c5_reset_postcondition_witness :
    (resetUnconfirmedTiles sampleState).stagedTiles = [] ∧
    (resetUnconfirmedTiles sampleState).board = sampleState.board ∧
    resetUnconfirmedTiles sampleState = resetUnconfirmedTiles
      { sampleState with
        stagedTiles := []
        playerHand := (normalizeHand sampleState.playerHand).set 1 (some tileB) } := by
  have h := claim_c5_reset_postcondition sampleState
  exact ⟨h.1, h.2.2.1,
    (h.2.2.2 (0, 0) tileB [] (by decide)).1 1 (by decide)⟩

/-- C6: The board is append-only: from any reachable state, no operation
removes or changes an existing board entry, and any operation other than
commit leaves the board map untouched. -/
theorem claim_c6_board_append_only (s : GameState) (h : Reachable s) (op : Op) :
    (∀ c t, lookupCoord s.board c = some t →
      lookupCoord (applyOp op s).board c = some t) ∧
    (op ≠ Op.commit → (applyOp op s).board = s.board) := by
  have hinv := reachable_gameInv s h
  cases op with
  | select i =>
    refine ⟨fun c t hc => ?_, fun _ => ?_⟩
    · show lookupCoord (selectSlot s i).board c = some t
      rw [selectSlot_board]
      exact hc
    · exact selectSlot_board s i
  | place c0 =>
    refine ⟨fun c t hc => ?_, fun _ => ?_⟩
    · show lookupCoord (placeAt s c0).board c = some t
      rw [placeAt_board]
      exact hc
    · exact placeAt_board s c0
  | commit =>
    exact ⟨fun c t hc => commitTurn_board_keeps s hinv c t hc,
      fun hne => absurd rfl hne⟩
  | reset =>
    exact ⟨fun c t hc => hc, fun _ => rfl⟩

theorem claim_c6_board_append_only_witness :
    lookupCoord (applyOp (Op.select 1) demoState3).board (0, 0) =
      some ⟨Shape.Fourpoint, Color.Purple⟩ ∧
    (applyOp Op.reset demoState3).board = demoState3.board := by
  refine ⟨?_, ?_⟩
  · exact (claim_c6_board_append_only demoState3 demoState3_reachable
      (Op.select 1)).1 (0, 0) ⟨Shape.Fourpoint, Color.Purple⟩ (by decide)
  · exact (claim_c6_board_append_only demoState3 demoState3_reachable
      Op.reset).2 (by decide)

/-- C7: In every reachable state, the staged coordinates are disjoint from
the board coordinates: a coordinate present in the staging area is absent
from the board. -/
theorem claim_c7_staged_board_disjoint (s : GameState) (h : Reachable s)
    (c : Coord) (hc : (lookupCoord s.stagedTiles c).isSome = true) :
    lookupCoord s.board c = none :=
  (reachable_gameInv s h).disj c hc

theorem claim_c7_staged_board_disjoint_witness :
    lookupCoord demoState2.board (0, 0) = none :=
  claim_c7_staged_board_disjoint demoState2 demoState2_reachable (0, 0)
    (by decide)

/-- C8: Drawing on an empty supply returns the fixed placeholder tile
(first shape enumerator Circle, first color enumerator Red) and leaves the
supply empty, instead of signalling exhaustion. -/
theorem claim_c8_draw_empty_placeholder :
    drawTileFromBag [] = (⟨Shape.Circle, Color.Red⟩, ([] : List Tile)) := rfl

/-- C9: Initial composition: any supply obtained by permuting (shuffling)
the freshly built tile bag holds 108 tiles, exactly 3 of each of the 36
(shape, color) combinations and nothing else. -/
theorem claim_c9_initial_composition (bag : List Tile)
    (h : bag.Perm initTileBag) :
    bag.length = 108 ∧ ∀ t : Tile, bag.count t = 3 := by
  constructor
  · rw [h.length_eq]
    exact initTileBag_length
  · intro t
    rw [h.count_eq]
    revert t
    decide

theorem claim_c9_initial_composition_witness :
    initTileBag.length = 108 ∧
    initTileBag.count ⟨Shape.Circle, Color.Red⟩ = 3 := by
  have h := claim_c9_initial_composition initTileBag (List.Perm.refl initTileBag)
  exact ⟨h.1, h.2 ⟨Shape.Circle, Color.Red⟩⟩

/-- C10: The empty-supply placeholder branch of the draw operation is
unreachable from hand refill: refill coincides with the exhaustion-aware
variant that never fabricates a tile, and every tile a refill puts into a
previously empty slot is an element of the supply. -/
theorem claim_c10_refill_no_placeholder (hand : List (Option Tile))
    (bag : List Tile) :
    refillHand hand bag = refillLoopSafe (normalizeHand hand) bag ∧
    (∀ i t, (refillHand hand bag).1.getD i none = some t →
      (normalizeHand hand).getD i none = some t ∨ t ∈ bag) := by
  constructor
  · exact refillLoop_eq_safe (normalizeHand hand) bag
  · intro i t h
    exact refillLoop_mem (normalizeHand hand) bag i t h

theorem claim_c10_refill_no_placeholder_witness :
    refillHand sampleHand [tileC] = refillLoopSafe (normalizeHand sampleHand) [tileC] ∧
    ((normalizeHand sampleHand).getD 1 none = some tileC ∨ tileC ∈ [tileC]) := by
  have h := claim_c10_refill_no_placeholder sampleHand [tileC]
  exact ⟨h.1, h.2 1 tileC (by decide)⟩
